import Mathlib

/-
Verification of the unc_text text-buffer core (unc_text.cpp).

The buffer stores a sequence of code points (C++ `int`, modelled as `Int`),
a cached display byte sequence `m_logtext`, and a validity flag `m_logok`.
`size_t` values are modelled as `Nat`; where the source relies on unsigned
wraparound (the subtraction `size() - len` in rfind, the resume index in
replace) the wrap is made
explicit modulo 2^64.
-/

/-- Modulus of the 64-bit `size_t` type used by the source. -/
def usize : Nat := 2 ^ 64

/-- Modelled from the spec: the external code-point lowercasing helper
(`unc_tolower`, declared in unc_ctype.h which is outside the translated file):
it returns the lowercase form of a cased (ASCII) letter and is the identity
on every other code point. -/
def unc_tolower (c : Int) : Int :=
  if 65 ≤ c ∧ c ≤ 90 then c + 32 else c

/-- The text buffer: code points, display-cache bytes, and cache-valid flag. -/
structure unc_text where
  m_chars : List Int
  m_logok : Bool
  m_logtext : List Nat
deriving DecidableEq

namespace unc_text

/-- Number of stored code points (`unc_text::size`). -/
def size (t : unc_text) : Nat := t.m_chars.length

/-- Semantics of `std::vector<int>::resize`: keep a prefix, zero-fill growth. -/
def listResize (l : List Int) (n : Nat) : List Int :=
  l.take n ++ List.replicate (n - l.length) 0

/-- Translation of the static helper `fix_len_idx(size, idx, len)`. -/
def fix_len_idx (size idx len : Nat) : Nat :=
  if idx ≥ size then 0
  else
    let left := size - idx
    if len > left then left else len

/-- The element-copy loop shared by the two range-`set` overloads:
`for (di = 0; len > 0; di++, idx++, len--) m_chars[di] = src[idx]`. -/
def copyLoop (dst src : List Int) (di si : Nat) : Nat → List Int
  | 0 => dst
  | n + 1 => copyLoop (dst.set di (src.getD si 0)) src (di + 1) (si + 1) n

/-- Translation of `unc_text::set(int ch)`. -/
def set_char (_t : unc_text) (ch : Int) : unc_text :=
  { m_chars := [ch], m_logok := false, m_logtext := _t.m_logtext }

/-- Translation of `unc_text::set(const unc_text &ref)`. -/
def set_ref (t ref : unc_text) : unc_text :=
  { t with m_chars := ref.m_chars, m_logok := false }

/-- Translation of `unc_text::set(const unc_text &ref, size_t idx, size_t len)`. -/
def set_range (t ref : unc_text) (idx len : Nat) : unc_text :=
  if len = ref.size then { t with m_chars := ref.m_chars, m_logok := false }
  else
    let base := listResize t.m_chars len
    let k := fix_len_idx ref.size idx len
    { t with m_chars := copyLoop base ref.m_chars 0 idx k, m_logok := false }

/-- Translation of `unc_text::set(const value_type &data, size_t idx, size_t len)`. -/
def set_data (t : unc_text) (data : List Int) (idx len : Nat) : unc_text :=
  let base := listResize t.m_chars len
  let k := fix_len_idx data.length idx len
  { t with m_chars := copyLoop base data 0 idx k, m_logok := false }

/-- Translation of `unc_text::resize(size_t new_size)`. -/
def resize (t : unc_text) (new_size : Nat) : unc_text :=
  if t.size = new_size then t
  else { t with m_chars := listResize t.m_chars new_size, m_logok := false }

/-- Translation of `unc_text::clear()`. -/
def clear (t : unc_text) : unc_text :=
  { t with m_chars := [], m_logok := false }

/-- Translation of `unc_text::insert(size_t idx, int ch)`.  The source
requires `idx <= size()` (vector-iterator arithmetic is undefined otherwise). -/
def insert_char (t : unc_text) (idx : Nat) (ch : Int) : unc_text :=
  { t with m_chars := t.m_chars.take idx ++ ch :: t.m_chars.drop idx,
           m_logok := false }

/-- Translation of `unc_text::insert(size_t idx, const unc_text &ref)`.
The source requires `idx <= size()`. -/
def insert (t : unc_text) (idx : Nat) (ref : unc_text) : unc_text :=
  { t with m_chars := t.m_chars.take idx ++ ref.m_chars ++ t.m_chars.drop idx,
           m_logok := false }

/-- Translation of `unc_text::append(int ch)`. -/
def append_char (t : unc_text) (ch : Int) : unc_text :=
  { t with m_chars := t.m_chars ++ [ch], m_logok := false }

/-- Translation of `unc_text::append(const unc_text &ref)`. -/
def append (t ref : unc_text) : unc_text :=
  { t with m_chars := t.m_chars ++ ref.m_chars, m_logok := false }

/-- Translation of `unc_text::erase(size_t idx, size_t len)`.  The source
requires `idx + len <= size()`.  Note: the source never touches `m_logok`
in this function. -/
def erase (t : unc_text) (idx len : Nat) : unc_text :=
  if len = 0 then t
  else { t with m_chars := t.m_chars.take idx ++ t.m_chars.drop (idx + len) }

/-- Code-point substitution performed by `update_logtext` before encoding:
a newline (10) becomes U+2424 and a carriage return (13) becomes U+240D. -/
def substituteChar (c : Int) : Int :=
  if c = 10 then 0x2424 else if c = 13 then 0x240d else c

/-- Translation of `unc_text::update_logtext()`.  The external byte encoder
`encode_utf8` (unicode.h, outside the translated file) is a parameter `enc`:
it maps one code point to the bytes it appends to the cache. -/
def update_logtext (t : unc_text) (enc : Int → List Nat) : unc_text :=
  if t.m_logok then t
  else
    let log := t.m_chars.foldl (fun acc c => acc ++ enc (substituteChar c)) []
    { t with m_logtext := log ++ [0], m_logok := true }

/-- The `compare` scan loop `for (; idx < max_idx; idx++)`, rendered with the
remaining iteration count `max_idx - idx` as a structural argument:
`some r` models an early `return r`, `none` models falling out of the loop. -/
def compareScan (a b : List Int) : Nat → Nat → Option Int
  | _, 0 => none
  | idx, fuel + 1 =>
      if a.getD idx 0 = b.getD idx 0 then compareScan a b (idx + 1) fuel
      else
        let diff := unc_tolower (a.getD idx 0) - unc_tolower (b.getD idx 0)
        if diff = 0 then some (-(a.getD idx 0 - b.getD idx 0)) else some diff

/-- Translation of `unc_text::compare(ref1, ref2, len)`.  The final signed
length difference is exact (`int` holds it for any realistic buffer). -/
def compare (ref1 ref2 : unc_text) (len : Nat) : Int :=
  let len1 := ref1.size
  let len2 := ref2.size
  let max_idx := min len (min len1 len2)
  match compareScan ref1.m_chars ref2.m_chars 0 max_idx with
  | some r => r
  | none =>
      if max_idx = len then 0
      else if len1 > len2 then Int.ofNat (len1 - len2)
      else -Int.ofNat (len2 - len1)

/-- The shared inner match loop of `find`/`rfind`, reading
`m_chars[idx + ii]` against successive pattern elements with an early break
on the first mismatch.  Access past the end of `chars` is undefined behavior
in the source and is modelled as `none`. -/
def matchFrom (chars : List Int) (idx : Nat) : List Int → Option Bool
  | [] => some true
  | p :: ps =>
      match chars.get? idx with
      | none => none
      | some c => if c ≠ p then some false else matchFrom chars (idx + 1) ps

/-- Total version of the inner match loop, used by `find`, whose loop bound
`idx <= size() - len` keeps every read in bounds (see `matchFrom_eq_matchPat`). -/
def matchPat (chars : List Int) (idx : Nat) : List Int → Bool
  | [] => true
  | p :: ps => if chars.getD idx 0 ≠ p then false else matchPat chars (idx + 1) ps

/-- The outer scan loop of `find`, `for (idx = sidx; idx <= midx; idx++)`,
rendered with the remaining iteration count `midx + 1 - idx` as a structural
argument (the count is 0 exactly when `idx > midx`). -/
def findLoop (chars pat : List Int) : Nat → Nat → Int
  | _, 0 => -1
  | idx, fuel + 1 =>
      if matchPat chars idx pat then Int.ofNat idx
      else findLoop chars pat (idx + 1) fuel

/-- Translation of `unc_text::find(text, sidx)`. -/
def find (t : unc_text) (pat : List Int) (sidx : Nat) : Int :=
  if t.size < pat.length then -1
  else findLoop t.m_chars pat sidx (t.size - pat.length + 1 - sidx)

/-- The downward scan loop of `rfind`: `for (idx = sidx; idx != 0; idx--)`.
Position 0 is never examined.  `none` models an out-of-bounds read. -/
def rfindLoop (chars pat : List Int) : Nat → Option Int
  | 0 => some (-1)
  | idx + 1 =>
      match matchFrom chars (idx + 1) pat with
      | none => none
      | some true => some (Int.ofNat (idx + 1))
      | some false => rfindLoop chars pat idx

/-- Translation of `unc_text::rfind(text, sidx)`.  `midx = size() - len` is
`size_t` arithmetic, so it wraps modulo 2^64 when `len > size()`. -/
def rfind (t : unc_text) (pat : List Int) (sidx : Nat) : Option Int :=
  let midx := (t.size + (usize - pat.length % usize)) % usize
  let s := if sidx > midx then midx else sidx
  rfindLoop t.m_chars pat s

/-- The resume position of `replace` after a match at `fidx`:
`fidx + newtext_size - olen + 1` in `size_t` arithmetic (wraps mod 2^64). -/
def resumeIdx (fidx nsize olen : Nat) : Nat :=
  ((fidx + nsize + (usize - olen % usize)) % usize + 1) % usize

/-- The `while (fidx >= 0)` loop of `unc_text::replace`, with a fuel bound.
The Bool result is `true` iff the loop exited normally (`fidx < 0`) before
the fuel ran out; the source loop has no fuel, so proving the flag `true`
for some fuel is exactly a termination proof for the source loop. -/
def replaceLoop (old : List Int) (newt : unc_text) (fuel : Nat) (t : unc_text)
    (fidx : Int) (rcnt : Nat) : unc_text × Nat × Bool :=
  if fidx ≥ 0 then
    match fuel with
    | 0 => (t, rcnt, false)
    | fuel2 + 1 =>
        let t1 := t.erase fidx.toNat old.length
        let t2 := t1.insert fidx.toNat newt
        replaceLoop old newt fuel2 t2
          (t2.find old (resumeIdx fidx.toNat newt.size old.length)) (rcnt + 1)
  else (t, rcnt, true)

/-- Translation of `unc_text::replace(oldtext, newtext)`, returning the final
buffer and the replacement count.  The fuel `size + 1` is shown sufficient in
the termination theorem below, so the flag never matters for valid inputs. -/
def replace (t : unc_text) (old : List Int) (newt : unc_text) : unc_text × Nat :=
  let r := replaceLoop old newt (t.size + 1) t (t.find old 0) 0
  (r.1, r.2.1)

/-- Contiguous occurrence of `pat` in `chars` at index `i`. -/
def occursAt (chars pat : List Int) (i : Nat) : Prop :=
  i + pat.length ≤ chars.length ∧ (chars.drop i).take pat.length = pat

instance occursAtDecidable (chars pat : List Int) (i : Nat) :
    Decidable (occursAt chars pat i) := by
  unfold occursAt
  infer_instance

theorem getD_eq_getElem_of_lt (l : List Int) (n : Nat) (h : n < l.length) :
    l.getD n 0 = l[n] := by
  simp [List.getD_eq_getElem?_getD, List.getElem?_eq_getElem h]

theorem matchFrom_eq_matchPat (chars : List Int) :
    ∀ (pat : List Int) (idx : Nat), idx + pat.length ≤ chars.length →
      matchFrom chars idx pat = some (matchPat chars idx pat)
  | [], _, _ => rfl
  | p :: ps, idx, h => by
      have hidx : idx < chars.length := by
        simp only [List.length_cons] at h
        omega
      have hget : chars.get? idx = some chars[idx] := by
        simp [List.get?_eq_getElem?, List.getElem?_eq_getElem hidx]
      have hgd : chars.getD idx 0 = chars[idx] := getD_eq_getElem_of_lt chars idx hidx
      have hrec := matchFrom_eq_matchPat chars ps (idx + 1) (by
        simp only [List.length_cons] at h
        omega)
      rw [matchFrom, matchPat, hget, hgd]
      by_cases hc : chars[idx] = p
      · simpa [hc] using hrec
      · simp [hc]

theorem matchPat_true_iff (chars : List Int) :
    ∀ (pat : List Int) (idx : Nat), idx + pat.length ≤ chars.length →
      (matchPat chars idx pat = true ↔ (chars.drop idx).take pat.length = pat)
  | [], idx, _ => by simp [matchPat]
  | p :: ps, idx, h => by
      have hidx : idx < chars.length := by
        simp only [List.length_cons] at h
        omega
      have hgd : chars.getD idx 0 = chars[idx] := getD_eq_getElem_of_lt chars idx hidx
      have hrec := matchPat_true_iff chars ps (idx + 1) (by
        simp only [List.length_cons] at h
        omega)
      rw [matchPat, hgd, List.drop_eq_getElem_cons hidx]
      simp only [List.length_cons, List.take_succ_cons, List.cons.injEq]
      by_cases hc : chars[idx] = p
      · simpa [hc] using hrec
      · simp [hc]

theorem occursAt_iff_matchPat (chars pat : List Int) (i : Nat) :
    occursAt chars pat i ↔
      i + pat.length ≤ chars.length ∧ matchPat chars i pat = true := by
  unfold occursAt
  constructor
  · rintro ⟨h1, h2⟩
    exact ⟨h1, (matchPat_true_iff chars pat i h1).mpr h2⟩
  · rintro ⟨h1, h2⟩
    exact ⟨h1, (matchPat_true_iff chars pat i h1).mp h2⟩

theorem findLoop_spec (chars pat : List Int) :
    ∀ (fuel idx : Nat),
      (findLoop chars pat idx fuel = -1 ∧
        ∀ j, idx ≤ j → j < idx + fuel → matchPat chars j pat = false) ∨
      (∃ i, findLoop chars pat idx fuel = Int.ofNat i ∧ idx ≤ i ∧ i < idx + fuel ∧
        matchPat chars i pat = true ∧
        ∀ j, idx ≤ j → j < i → matchPat chars j pat = false)
  | 0, idx => by
      left
      exact ⟨rfl, fun j h1 h2 => absurd h1 (by omega)⟩
  | fuel + 1, idx => by
      by_cases hm : matchPat chars idx pat = true
      · right
        exact ⟨idx, by rw [findLoop, if_pos hm], le_rfl, by omega, hm,
          fun j h1 h2 => absurd h1 (by omega)⟩
      · simp only [Bool.not_eq_true] at hm
        have hrec := findLoop_spec chars pat fuel (idx + 1)
        rw [findLoop, if_neg (by simp [hm])]
        rcases hrec with ⟨he, hall⟩ | ⟨i, he, h1, h2, h3, hmin⟩
        · left
          refine ⟨he, fun j hj1 hj2 => ?_⟩
          rcases Nat.eq_or_lt_of_le hj1 with rfl | hj
          · exact hm
          · exact hall j hj (by omega)
        · right
          refine ⟨i, he, by omega, by omega, h3, fun j hj1 hj2 => ?_⟩
          rcases Nat.eq_or_lt_of_le hj1 with rfl | hj
          · exact hm
          · exact hmin j hj hj2

theorem rfindLoop_not_found (chars pat : List Int) :
    ∀ (s : Nat), s + pat.length ≤ chars.length →
      (∀ i, 1 ≤ i → i ≤ s → matchPat chars i pat = false) →
      rfindLoop chars pat s = some (-1)
  | 0, _, _ => rfl
  | s + 1, hb, hall => by
      have hm := matchFrom_eq_matchPat chars pat (s + 1) hb
      rw [rfindLoop, hm, hall (s + 1) (by omega) le_rfl]
      exact rfindLoop_not_found chars pat s (by omega) (fun i h1 h2 => hall i h1 (by omega))

theorem rfindLoop_found (chars pat : List Int) :
    ∀ (s i : Nat), s + pat.length ≤ chars.length →
      1 ≤ i → i ≤ s → matchPat chars i pat = true →
      (∀ j, i < j → j ≤ s → matchPat chars j pat = false) →
      rfindLoop chars pat s = some (Int.ofNat i)
  | 0, i, _, h1, h2, _, _ => absurd (le_trans h1 h2) (by omega)
  | s + 1, i, hb, h1, h2, hm, hmax => by
      have hms := matchFrom_eq_matchPat chars pat (s + 1) hb
      rcases Nat.eq_or_lt_of_le h2 with rfl | hlt
      · rw [rfindLoop, hms, hm]
      · rw [rfindLoop, hms, hmax (s + 1) (by omega) le_rfl]
        exact rfindLoop_found chars pat s i (by omega) h1 (by omega) hm
          (fun j hj1 hj2 => hmax j hj1 (by omega))

theorem compareScan_skip (a b : List Int) :
    ∀ (k idx fuel : Nat), k ≤ fuel →
      (∀ j, idx ≤ j → j < idx + k → a.getD j 0 = b.getD j 0) →
      compareScan a b idx fuel = compareScan a b (idx + k) (fuel - k)
  | 0, idx, fuel => by simp
  | k + 1, idx, fuel => fun hk heq => by
      obtain ⟨fuel2, rfl⟩ : ∃ f2, fuel = f2 + 1 := by
        obtain ⟨f2, hf2⟩ := Nat.exists_eq_add_of_le hk
        exact ⟨f2 + k, by rw [hf2, Nat.add_comm, Nat.add_assoc]⟩
      rw [compareScan,
        if_pos (heq idx le_rfl (Nat.lt_add_of_pos_right (Nat.succ_pos k)))]
      rw [compareScan_skip a b k (idx + 1) fuel2 (Nat.le_of_succ_le_succ hk)
        (fun j hj1 hj2 => heq j (le_trans (Nat.le_succ idx) hj1)
          (Nat.add_right_comm idx 1 k ▸ hj2))]
      rw [Nat.add_right_comm idx 1 k, Nat.succ_sub_succ fuel2 k,
        Nat.add_assoc idx k 1]

theorem listResize_length (l : List Int) (n : Nat) :
    (listResize l n).length = n := by
  unfold listResize
  rw [List.length_append, List.length_take, List.length_replicate]
  rcases le_or_lt n l.length with h | h
  · rw [min_eq_left h, Nat.sub_eq_zero_of_le h]
    rfl
  · rw [min_eq_right (le_of_lt h), Nat.add_sub_cancel' (le_of_lt h)]

theorem foldl_append_join (f : Int → List Nat) :
    ∀ (l : List Int) (acc : List Nat),
      l.foldl (fun a c => a ++ f c) acc = acc ++ (l.map f).flatten
  | [], acc => by simp
  | c :: cs, acc => by
      simp only [List.foldl_cons, List.map_cons, List.flatten_cons]
      rw [foldl_append_join f cs (acc ++ f c), List.append_assoc]

end unc_text

open unc_text

/-- C1: the claim says every mutator (set, insert, append, erase with positive
length, resize to a new size, clear, replace) sets `m_logok` to false.  The
source honors this in every mutator except `erase`, which removes elements but
never clears the flag: on a buffer with a valid cache, `erase(0, 1)` changes
`m_chars` yet leaves `m_logok = true`, while the sibling mutators all clear it. -/
theorem erase_leaves_cache_valid_bug :
    (unc_text.erase ⟨[97, 98], true, [97, 98, 0]⟩ 0 1).m_chars = [98] ∧
    (unc_text.erase ⟨[97, 98], true, [97, 98, 0]⟩ 0 1).m_logok = true ∧
    (unc_text.set_char ⟨[97, 98], true, [97, 98, 0]⟩ 99).m_logok = false ∧
    (unc_text.set_ref ⟨[97, 98], true, [97, 98, 0]⟩ ⟨[99], false, []⟩).m_logok = false ∧
    (unc_text.insert_char ⟨[97, 98], true, [97, 98, 0]⟩ 0 99).m_logok = false ∧
    (unc_text.insert ⟨[97, 98], true, [97, 98, 0]⟩ 0 ⟨[99], false, []⟩).m_logok = false ∧
    (unc_text.append_char ⟨[97, 98], true, [97, 98, 0]⟩ 99).m_logok = false ∧
    (unc_text.append ⟨[97, 98], true, [97, 98, 0]⟩ ⟨[99], false, []⟩).m_logok = false ∧
    (unc_text.resize ⟨[97, 98], true, [97, 98, 0]⟩ 3).m_logok = false ∧
    (unc_text.clear ⟨[97, 98], true, [97, 98, 0]⟩).m_logok = false := by
  decide

/-- C3 counterexample: the claim asserts `compare("Apple", "apple", 5) < 0`,
but the negated raw difference is `-(65 - 97) = 32`, strictly positive. -/
theorem compare_apple_not_negative :
    ¬ (unc_text.compare ⟨[65, 112, 112, 108, 101], false, []⟩
        ⟨[97, 112, 112, 108, 101], false, []⟩ 5 < 0) := by
  decide

/-- C3 amended: at the first differing position whose characters agree after
lowercasing, `compare` returns the negated raw difference `-(a[i] - b[i])`;
lowercase therefore sorts before uppercase, and in particular
`compare("Apple", "apple", 5)` is strictly positive (not negative). -/
theorem compare_case_tiebreak (a b : unc_text) (len i : Nat)
    (hi : i < min len (min a.size b.size))
    (hpre : ∀ j, j < i → a.m_chars.getD j 0 = b.m_chars.getD j 0)
    (hne : a.m_chars.getD i 0 ≠ b.m_chars.getD i 0)
    (hlow : unc_tolower (a.m_chars.getD i 0) = unc_tolower (b.m_chars.getD i 0)) :
    unc_text.compare a b len = -(a.m_chars.getD i 0 - b.m_chars.getD i 0) := by
  have hscan : compareScan a.m_chars b.m_chars 0 (min len (min a.size b.size))
      = some (-(a.m_chars.getD i 0 - b.m_chars.getD i 0)) := by
    rw [compareScan_skip a.m_chars b.m_chars i 0 (min len (min a.size b.size))
      (le_of_lt hi)
      (fun j hj1 hj2 => hpre j (Nat.zero_add i ▸ hj2))]
    obtain ⟨f2, hf⟩ : ∃ f2, min len (min a.size b.size) - i = f2 + 1 := by
      obtain ⟨f2, hf2⟩ := Nat.exists_eq_add_of_lt hi
      exact ⟨f2, by rw [hf2, Nat.add_assoc, Nat.add_sub_cancel_left]⟩
    rw [hf]
    simp only [Nat.zero_add]
    rw [compareScan, if_neg hne]
    simp only []
    rw [if_pos (by rw [sub_eq_zero]; exact hlow)]
  simp only [unc_text.compare, hscan]

/-- C3 witness: `compare("Apple", "apple", 5) = -(65 - 97) = 32 > 0`. -/
theorem compare_case_tiebreak_witness :
    unc_text.compare ⟨[65, 112, 112, 108, 101], false, []⟩
      ⟨[97, 112, 112, 108, 101], false, []⟩ 5 = 32 := by
  have h := compare_case_tiebreak ⟨[65, 112, 112, 108, 101], false, []⟩
    ⟨[97, 112, 112, 108, 101], false, []⟩ 5 0 (by decide)
    (fun j hj => absurd hj (by omega)) (by decide) (by decide)
  rw [h]
  decide

/-- C8: when the two buffers agree on their whole common prefix and `maxLen`
exceeds the common length, `compare` is negative iff `a` is shorter, positive
iff `a` is longer, and zero for equal lengths; the signed length difference is
computed without unsigned underflow. -/
theorem compare_length_tiebreak (a b : unc_text) (len : Nat)
    (hpre : ∀ j, j < min a.size b.size → a.m_chars.getD j 0 = b.m_chars.getD j 0)
    (hlen : min a.size b.size < len) :
    (a.size < b.size → unc_text.compare a b len < 0) ∧
    (b.size < a.size → 0 < unc_text.compare a b len) ∧
    (a.size = b.size → unc_text.compare a b len = 0) := by
  have hmax : min len (min a.size b.size) = min a.size b.size :=
    min_eq_right (le_of_lt hlen)
  have hscan : compareScan a.m_chars b.m_chars 0 (min len (min a.size b.size))
      = none := by
    rw [compareScan_skip a.m_chars b.m_chars (min len (min a.size b.size)) 0
      (min len (min a.size b.size)) le_rfl
      (fun j hj1 hj2 => hpre j
        (lt_of_lt_of_le (Nat.zero_add (min len (min a.size b.size)) ▸ hj2)
          (le_of_eq hmax)))]
    rw [Nat.sub_self]
    rfl
  simp only [unc_text.compare, hscan]
  rw [if_neg (show ¬ min len (min a.size b.size) = len by
    rw [hmax]; exact ne_of_lt hlen)]
  by_cases hab : a.size > b.size
  · rw [if_pos hab]
    exact ⟨fun h => absurd h (not_lt.mpr (le_of_lt hab)),
      fun _ => Int.ofNat_pos.mpr (Nat.sub_pos_of_lt hab),
      fun h => absurd h (ne_of_gt hab)⟩
  · rw [if_neg hab]
    refine ⟨fun h => neg_neg_of_pos (Int.ofNat_pos.mpr (Nat.sub_pos_of_lt h)),
      fun h => absurd h hab, fun h => ?_⟩
    rw [h, Nat.sub_self]
    rfl

/-- C8 witness: `compare("ab", "abc", 3)` is strictly negative. -/
theorem compare_length_tiebreak_witness :
    unc_text.compare ⟨[97, 98], false, []⟩ ⟨[97, 98, 99], false, []⟩ 3 < 0 :=
  (compare_length_tiebreak ⟨[97, 98], false, []⟩ ⟨[97, 98, 99], false, []⟩ 3
    (by decide) (by decide)).1 (by decide)

/-- C4 counterexample: `set(other, start, length)` with `start >= other.size`
does not produce a zero-filled buffer: on a target holding `[1]`, taking
`other = [7, 8]`, `start = 5`, `length = 1` leaves the old element `1`. -/
theorem set_range_not_zero_filled :
    ¬ ((unc_text.set_range ⟨[1], false, []⟩ ⟨[7, 8], false, []⟩ 5 1).m_chars
        = List.replicate 1 0) := by
  decide

/-- C4 amended: with `start >= other.size` and `length ≠ other.size`, the copy
loop copies nothing, so the call leaves the previous contents resized to
exactly `length` elements (old prefix kept, zero-fill only for growth); with
`length = other.size` the call instead copies `other` in full.  Neither case
is an error. -/
theorem set_range_oob_start (t other : unc_text) (start len : Nat)
    (h : other.size ≤ start) :
    (unc_text.set_range t other start len).m_logok = false ∧
    (len = other.size →
      (unc_text.set_range t other start len).m_chars = other.m_chars) ∧
    (len ≠ other.size →
      (unc_text.set_range t other start len).m_chars = listResize t.m_chars len ∧
      ((unc_text.set_range t other start len).m_chars).length = len) := by
  unfold unc_text.set_range
  by_cases hlen : len = other.size
  · rw [if_pos hlen]
    exact ⟨rfl, fun _ => rfl, fun hc => absurd hlen hc⟩
  · rw [if_neg hlen]
    have hfix : fix_len_idx other.size start len = 0 := by
      unfold fix_len_idx
      rw [if_pos h]
    simp only [hfix]
    refine ⟨trivial, fun hc => absurd hc hlen, fun _ => ⟨rfl, ?_⟩⟩
    exact listResize_length t.m_chars len

/-- C4 witness: target `[1]`, `other = [7, 8]`, `start = 5`, `length = 1`:
the result is the old contents resized, namely `[1]`. -/
theorem set_range_oob_start_witness :
    (unc_text.set_range ⟨[1], false, []⟩ ⟨[7, 8], false, []⟩ 5 1).m_chars
      = [1] := by
  have h := (set_range_oob_start ⟨[1], false, []⟩ ⟨[7, 8], false, []⟩ 5 1
    (by decide)).2.2 (by decide)
  rw [h.1]
  decide

/-- C9: inserting a buffer at a valid index and immediately erasing the same
range restores the original code-point sequence exactly. -/
theorem insert_erase_roundtrip (t p : unc_text) (idx : Nat) (h : idx ≤ t.size) :
    ((t.insert idx p).erase idx p.size).m_chars = t.m_chars := by
  by_cases hp : p.size = 0
  · have hnil : p.m_chars = [] := List.eq_nil_of_length_eq_zero hp
    simp only [unc_text.erase, if_pos hp, unc_text.insert, hnil,
      List.append_nil]
    exact List.take_append_drop idx t.m_chars
  · have hlen1 : (t.m_chars.take idx).length = idx := by
      rw [List.length_take]
      exact min_eq_left h
    have ht : (t.m_chars.take idx ++ p.m_chars ++ t.m_chars.drop idx).take idx
        = t.m_chars.take idx := by
      rw [List.append_assoc]
      exact List.take_left' hlen1
    have hd : (t.m_chars.take idx ++ p.m_chars ++ t.m_chars.drop idx).drop
        (idx + p.size) = t.m_chars.drop idx :=
      List.drop_left' (by rw [List.length_append, hlen1]; rfl)
    simp only [unc_text.erase, if_neg hp, unc_text.insert, ht, hd]
    exact List.take_append_drop idx t.m_chars

/-- C9 witness: insert `[99]` into `[97, 98]` at index 1, erase it again. -/
theorem insert_erase_roundtrip_witness :
    ((unc_text.insert ⟨[97, 98], false, []⟩ 1 ⟨[99], false, []⟩).erase 1 1).m_chars
      = [97, 98] :=
  insert_erase_roundtrip ⟨[97, 98], false, []⟩ ⟨[99], false, []⟩ 1 (by decide)

/-- C6: a rebuild request with a valid cache is a no-op; with an invalid cache
the rebuilt byte sequence is the concatenation, over the code points in order,
of the encoder output on the substituted code point (newline 10 becomes U+2424,
carriage return 13 becomes U+240D, all else unchanged), followed by exactly one
terminating zero byte, and the cache is marked valid. -/
theorem update_logtext_spec (t : unc_text) (enc : Int → List Nat) :
    (t.m_logok = true → t.update_logtext enc = t) ∧
    (t.m_logok = false →
      (t.update_logtext enc).m_logtext =
        (t.m_chars.map fun c => enc (substituteChar c)).flatten ++ [0] ∧
      (t.update_logtext enc).m_logok = true ∧
      (t.update_logtext enc).m_chars = t.m_chars) := by
  constructor
  · intro h
    unfold unc_text.update_logtext
    rw [if_pos h]
  · intro h
    unfold unc_text.update_logtext
    rw [if_neg (by simp [h])]
    refine ⟨?_, rfl, rfl⟩
    show t.m_chars.foldl (fun acc c => acc ++ enc (substituteChar c)) [] ++ [0] = _
    rw [foldl_append_join (fun c => enc (substituteChar c)) t.m_chars []]
    rw [List.nil_append]

/-- C6 witness: rebuilding the cache of `[10, 65]` under a one-byte encoder
yields the U+2424 substitute byte, the raw byte, then the terminating zero. -/
theorem update_logtext_spec_witness :
    (unc_text.update_logtext ⟨[10, 65], false, []⟩ (fun c => [c.toNat % 256])).m_logtext
      = [36, 65, 0] := by
  have h := (update_logtext_spec ⟨[10, 65], false, []⟩ (fun c => [c.toNat % 256])).2 rfl
  rw [h.1]
  decide

namespace unc_text

theorem matchFrom_oob (chars pat : List Int) (idx : Nat) (hp : pat ≠ [])
    (h : chars.length ≤ idx) : matchFrom chars idx pat = none := by
  cases pat with
  | nil => exact absurd rfl hp
  | cons p ps =>
      rw [matchFrom]
      rw [show chars.get? idx = none by
        simp [List.get?_eq_getElem?, List.getElem?_eq_none_iff.mpr h]]

theorem scanWindow_ub (L P sidx i : Nat) (hP : P ≤ L) (hs : sidx ≤ i)
    (h2 : i < sidx + (L - P + 1 - sidx)) : i + P ≤ L := by
  omega

theorem scanWindow_mem (L P sidx j : Nat) (hP : P ≤ L) (hj : sidx ≤ j)
    (hb : j + P ≤ L) : j < sidx + (L - P + 1 - sidx) := by
  omega

theorem find_cases (t : unc_text) (pat : List Int) (sidx : Nat) :
    t.find pat sidx = -1 ∨
    ∃ i, t.find pat sidx = Int.ofNat i ∧ sidx ≤ i ∧ i + pat.length ≤ t.size := by
  by_cases hsz : t.size < pat.length
  · left
    unfold unc_text.find
    rw [if_pos hsz]
  · have hfind : t.find pat sidx
        = findLoop t.m_chars pat sidx (t.size - pat.length + 1 - sidx) := by
      unfold unc_text.find
      rw [if_neg hsz]
    rcases findLoop_spec t.m_chars pat (t.size - pat.length + 1 - sidx) sidx with
      ⟨he, _⟩ | ⟨i, he, hi1, hi2, _, _⟩
    · left
      rw [hfind, he]
    · right
      exact ⟨i, by rw [hfind, he], hi1,
        scanWindow_ub t.size pat.length sidx i (not_lt.mp hsz) hi1 hi2⟩

end unc_text

/-- C7: `find` returns the leftmost index at or after `sidx` where the pattern
occurs contiguously (index 0 included), and -1 exactly when the pattern is
longer than the buffer or occurs at no index at or after `sidx`. -/
theorem find_leftmost (t : unc_text) (pat : List Int) (sidx : Nat)
    (hp : pat ≠ []) :
    (t.find pat sidx = -1 ∧ ∀ j, sidx ≤ j → ¬ occursAt t.m_chars pat j) ∨
    (∃ i, t.find pat sidx = Int.ofNat i ∧ sidx ≤ i ∧ occursAt t.m_chars pat i ∧
      ∀ j, sidx ≤ j → occursAt t.m_chars pat j → i ≤ j) := by
  have hsize : t.size = t.m_chars.length := rfl
  by_cases hsz : t.size < pat.length
  · left
    refine ⟨by unfold unc_text.find; rw [if_pos hsz], fun j hj hocc => ?_⟩
    exact absurd (le_trans (Nat.le_add_left pat.length j)
      (hsize ▸ hocc.1)) (not_le.mpr hsz)
  · push_neg at hsz
    have hfind : t.find pat sidx
        = findLoop t.m_chars pat sidx (t.size - pat.length + 1 - sidx) := by
      unfold unc_text.find
      rw [if_neg (not_lt.mpr hsz)]
    rcases findLoop_spec t.m_chars pat (t.size - pat.length + 1 - sidx) sidx with
      ⟨he, hall⟩ | ⟨i, he, h1, h2, h3, hmin⟩
    · left
      refine ⟨by rw [hfind, he], fun j hj hocc => ?_⟩
      have hmp := (occursAt_iff_matchPat t.m_chars pat j).mp hocc
      have hfalse := hall j hj
        (scanWindow_mem t.size pat.length sidx j hsz hj (hsize ▸ hocc.1))
      rw [hfalse] at hmp
      exact Bool.false_ne_true hmp.2
    · right
      have hoi : occursAt t.m_chars pat i :=
        (occursAt_iff_matchPat t.m_chars pat i).mpr
          ⟨hsize ▸ scanWindow_ub t.size pat.length sidx i hsz h1 h2, h3⟩
      refine ⟨i, by rw [hfind, he], h1, hoi, fun j hj hocc => ?_⟩
      by_contra hlt
      push_neg at hlt
      have hmp := (occursAt_iff_matchPat t.m_chars pat j).mp hocc
      have hfalse := hmin j hj hlt
      rw [hfalse] at hmp
      exact Bool.false_ne_true hmp.2

/-- C7 witness: in `[97, 98, 99]` the pattern `[98, 99]` is found at index 1,
the leftmost occurrence at or after 0. -/
theorem find_leftmost_witness :
    ([98, 99] : List Int) ≠ [] ∧
    ((unc_text.find ⟨[97, 98, 99], false, []⟩ [98, 99] 0 = -1 ∧
      ∀ j, 0 ≤ j → ¬ occursAt [97, 98, 99] [98, 99] j) ∨
    (∃ i, unc_text.find ⟨[97, 98, 99], false, []⟩ [98, 99] 0 = Int.ofNat i ∧
      0 ≤ i ∧ occursAt [97, 98, 99] [98, 99] i ∧
      ∀ j, 0 ≤ j → occursAt [97, 98, 99] [98, 99] j → i ≤ j)) :=
  ⟨by decide, find_leftmost ⟨[97, 98, 99], false, []⟩ [98, 99] 0 (by decide)⟩

/-- C2 counterexample: in `[97, 98, 99]` the pattern `[97]` occurs at index 0
and `0 <= min (fromIdx, size - patternLength)`, yet `rfind` returns the
not-found sentinel: the downward scan `for (idx = sidx; idx != 0; idx--)`
never examines index 0. -/
theorem rfind_misses_index_zero :
    unc_text.rfind ⟨[97, 98, 99], false, []⟩ [97] 2 = some (-1) ∧
    occursAt [97, 98, 99] [97] 0 := by
  decide

/-- C2 amended: for a non-empty pattern that fits in the buffer, `rfind`
returns the rightmost occurrence index `i` with
`1 <= i <= min (fromIdx, size - patternLength)`; an occurrence at index 0 is
never reported, and the sentinel -1 is returned exactly when no occurrence
exists in that range (in particular when the only occurrence is at index 0). -/
theorem rfind_rightmost_from_one (t : unc_text) (pat : List Int) (sidx : Nat)
    (h1 : 1 ≤ pat.length) (h2 : pat.length ≤ t.size) (h3 : t.size < usize) :
    (t.rfind pat sidx = some (-1) ∧
      ∀ i, 1 ≤ i → i ≤ min sidx (t.size - pat.length) →
        ¬ occursAt t.m_chars pat i) ∨
    (∃ i, t.rfind pat sidx = some (Int.ofNat i) ∧ 1 ≤ i ∧
      i ≤ min sidx (t.size - pat.length) ∧ occursAt t.m_chars pat i ∧
      ∀ j, i < j → j ≤ min sidx (t.size - pat.length) →
        ¬ occursAt t.m_chars pat j) := by
  have hsize : t.size = t.m_chars.length := rfl
  obtain ⟨d, hd⟩ := Nat.exists_eq_add_of_le h2
  have hsub : t.size - pat.length = d := by rw [hd, Nat.add_sub_cancel_left]
  rw [hsub]
  have hlu : pat.length < usize := lt_of_le_of_lt h2 h3
  obtain ⟨w, hw⟩ := Nat.exists_eq_add_of_le (le_of_lt hlu)
  have hwsub : usize - pat.length = w := by rw [hw, Nat.add_sub_cancel_left]
  have hmidx : (t.size + (usize - pat.length % usize)) % usize = d := by
    rw [Nat.mod_eq_of_lt hlu, hwsub]
    clear hsub hwsub
    rw [show t.size + w = d + usize by omega, Nat.add_mod_right]
    exact Nat.mod_eq_of_lt (show d < usize by omega)
  have hs : (if sidx > d then d else sidx) = min sidx d := by
    rcases le_or_lt sidx d with h | h
    · rw [if_neg (not_lt.mpr h), min_eq_left h]
    · rw [if_pos h, min_eq_right h.le]
  have hrf : t.rfind pat sidx = rfindLoop t.m_chars pat (min sidx d) := by
    unfold unc_text.rfind
    simp only []
    rw [hmidx, hs]
  clear hmidx hs hwsub hw hsub
  have hsb : min sidx d + pat.length ≤ t.m_chars.length :=
    le_trans (Nat.add_le_add_right (min_le_right sidx d) pat.length)
      (le_of_eq (by rw [Nat.add_comm, ← hd]; exact hsize.symm))
  by_cases hex : ∃ i, 1 ≤ i ∧ i ≤ min sidx d ∧
      matchPat t.m_chars i pat = true
  · obtain ⟨i0, hi01, hi0s, hP0⟩ := hex
    right
    have hg1 : i0 ≤ Nat.findGreatest (fun i => matchPat t.m_chars i pat = true)
        (min sidx d) := Nat.le_findGreatest hi0s hP0
    have hgs := Nat.findGreatest_le (P := fun i => matchPat t.m_chars i pat = true)
      (min sidx d)
    have hgP : matchPat t.m_chars
        (Nat.findGreatest (fun i => matchPat t.m_chars i pat = true)
          (min sidx d)) pat = true :=
      Nat.findGreatest_spec (P := fun i => matchPat t.m_chars i pat = true)
        hi0s hP0
    refine ⟨Nat.findGreatest (fun i => matchPat t.m_chars i pat = true)
      (min sidx d), ?_, le_trans hi01 hg1, hgs,
      (occursAt_iff_matchPat _ _ _).mpr
        ⟨le_trans (Nat.add_le_add_right hgs pat.length) hsb, hgP⟩,
      fun j hj1 hj2 hocc => ?_⟩
    · rw [hrf]
      refine rfindLoop_found t.m_chars pat _ _ hsb (le_trans hi01 hg1) hgs hgP
        (fun j hj1 hj2 => ?_)
      have := Nat.findGreatest_is_greatest hj1 hj2
      simpa using this
    · have := Nat.findGreatest_is_greatest hj1 hj2
      exact this ((occursAt_iff_matchPat _ _ _).mp hocc).2
  · left
    push_neg at hex
    refine ⟨?_, fun i h1i h2i hocc => ?_⟩
    · rw [hrf]
      refine rfindLoop_not_found t.m_chars pat _ hsb (fun i h1i h2i => ?_)
      have := hex i h1i h2i
      simpa using this
    · exact hex i h1i h2i ((occursAt_iff_matchPat _ _ _).mp hocc).2

/-- C2 witness: in `[97, 98, 97]` with pattern `[97]` and `fromIdx = 5`, the
rightmost occurrence at an index in `[1, min (5, 2)]` is index 2. -/
theorem rfind_rightmost_from_one_witness :
    (1 ≤ List.length [(97 : Int)]) ∧
    (List.length [(97 : Int)] ≤ unc_text.size ⟨[97, 98, 97], false, []⟩) ∧
    (unc_text.size ⟨[97, 98, 97], false, []⟩ < usize) ∧
    ((unc_text.rfind ⟨[97, 98, 97], false, []⟩ [97] 5 = some (-1) ∧
      ∀ i, 1 ≤ i → i ≤ min 5 (unc_text.size ⟨[97, 98, 97], false, []⟩ - 1) →
        ¬ occursAt [97, 98, 97] [97] i) ∨
    (∃ i, unc_text.rfind ⟨[97, 98, 97], false, []⟩ [97] 5 = some (Int.ofNat i) ∧
      1 ≤ i ∧ i ≤ min 5 (unc_text.size ⟨[97, 98, 97], false, []⟩ - 1) ∧
      occursAt [97, 98, 97] [97] i ∧
      ∀ j, i < j → j ≤ min 5 (unc_text.size ⟨[97, 98, 97], false, []⟩ - 1) →
        ¬ occursAt [97, 98, 97] [97] j)) :=
  ⟨by decide, by decide, by norm_num [unc_text.size, usize],
    rfind_rightmost_from_one ⟨[97, 98, 97], false, []⟩ [97] 5 (by decide)
      (by decide) (by norm_num [unc_text.size, usize])⟩

/-- C10: `find` rejects an over-long pattern up front, but `rfind` has no such
guard: when the pattern is longer than the buffer, the scan bound
`size() - len` wraps modulo 2^64 to a value larger than the buffer, and the
downward scan dereferences past the end of the code-point sequence — the
out-of-bounds branch of the embedding (`none`) is reached. -/
theorem rfind_oob_on_long_pattern (t : unc_text) (pat : List Int) (sidx : Nat)
    (h1 : t.size < pat.length) (h2 : pat.length < usize)
    (h3 : t.size ≤ sidx) (h4 : 1 ≤ sidx) :
    (∀ s2, t.find pat s2 = -1) ∧
    t.size < (t.size + (usize - pat.length % usize)) % usize ∧
    t.rfind pat sidx = none := by
  have hsize : t.size = t.m_chars.length := rfl
  obtain ⟨w, hw⟩ := Nat.exists_eq_add_of_lt h2
  have hwsub : usize - pat.length = w + 1 := by
    rw [hw, Nat.add_assoc, Nat.add_sub_cancel_left]
  have hmidx : (t.size + (usize - pat.length % usize)) % usize
      = t.size + (w + 1) := by
    rw [Nat.mod_eq_of_lt h2, hwsub]
    refine Nat.mod_eq_of_lt ?_
    rw [hw]
    exact Nat.add_lt_add_right h1 (w + 1)
  refine ⟨fun s2 => by unfold unc_text.find; rw [if_pos h1],
    by rw [hmidx]; exact Nat.lt_add_of_pos_right (Nat.succ_pos w), ?_⟩
  have hrf : t.rfind pat sidx
      = rfindLoop t.m_chars pat
        (if sidx > t.size + (w + 1) then t.size + (w + 1) else sidx) := by
    unfold unc_text.rfind
    simp only []
    rw [hmidx]
  rw [hrf]
  clear hmidx hrf hwsub
  have hsge : t.size ≤ (if sidx > t.size + (w + 1) then t.size + (w + 1) else sidx) := by
    split
    · exact Nat.le_add_right t.size (w + 1)
    · exact h3
  have hsp : 1 ≤ (if sidx > t.size + (w + 1) then t.size + (w + 1) else sidx) := by
    split
    · exact le_trans (Nat.succ_le_succ (Nat.zero_le w))
        (Nat.le_add_left (w + 1) t.size)
    · exact h4
  obtain ⟨s2, hs2⟩ : ∃ k,
      (if sidx > t.size + (w + 1) then t.size + (w + 1) else sidx) = k + 1 := by
    obtain ⟨k, hk⟩ := Nat.exists_eq_add_of_le hsp
    exact ⟨k, by rw [hk, Nat.add_comm]⟩
  rw [hs2] at hsge
  rw [hs2, rfindLoop]
  rw [matchFrom_oob t.m_chars pat (s2 + 1) (by
      intro hnil
      rw [hnil] at h1
      simp at h1) (le_trans (le_of_eq hsize.symm) hsge)]

/-- C10 witness: buffer `[97]`, pattern `[97, 98]`, `fromIdx = 1`: the scan
bound wraps and the first probe reads past the end. -/
theorem rfind_oob_on_long_pattern_witness :
    (unc_text.size ⟨[97], false, []⟩ < List.length ([97, 98] : List Int)) ∧
    (List.length ([97, 98] : List Int) < usize) ∧
    unc_text.rfind ⟨[97], false, []⟩ [97, 98] 1 = none :=
  ⟨by decide, by norm_num [usize],
    (rfind_oob_on_long_pattern ⟨[97], false, []⟩ [97, 98] 1 (by decide)
      (by norm_num [usize]) (by decide) (by decide)).2.2⟩

namespace unc_text

theorem erase_size (t : unc_text) (idx len : Nat) (h : idx + len ≤ t.size) :
    (t.erase idx len).size + len = t.size := by
  have h2 : idx + len ≤ t.m_chars.length := h
  unfold erase
  by_cases hl : len = 0
  · rw [if_pos hl, hl]
    rfl
  · rw [if_neg hl]
    show (t.m_chars.take idx ++ t.m_chars.drop (idx + len)).length + len
      = t.m_chars.length
    rw [List.length_append, List.length_take, List.length_drop,
      min_eq_left (le_trans (Nat.le_add_right idx len) h2)]
    clear h hl
    omega

theorem insert_size (t : unc_text) (idx : Nat) (ref : unc_text)
    (h : idx ≤ t.size) :
    (t.insert idx ref).size = t.size + ref.size := by
  have h2 : idx ≤ t.m_chars.length := h
  unfold insert
  show (t.m_chars.take idx ++ ref.m_chars ++ t.m_chars.drop idx).length
    = t.m_chars.length + ref.m_chars.length
  rw [List.length_append, List.length_append, List.length_take,
    List.length_drop, min_eq_left h2]
  omega

theorem intOfNat_nonneg (n : Nat) : 0 ≤ Int.ofNat n :=
  Int.ofNat_le.mpr (Nat.zero_le n)

theorem intToNat_ofNat (n : Nat) : (Int.ofNat n).toNat = n := rfl

theorem resumeIdx_eval_ge (f n o d : Nat) (ho1 : 1 ≤ o) (how : o < usize)
    (hfn : f + n < usize) (hd : f + n = o + d) : resumeIdx f n o = d + 1 := by
  obtain ⟨w, hw⟩ := Nat.exists_eq_add_of_le (le_of_lt how)
  have hwsub : usize - o = w := by rw [hw, Nat.add_sub_cancel_left]
  show ((f + n + (usize - o % usize)) % usize + 1) % usize = d + 1
  rw [Nat.mod_eq_of_lt how, hwsub, hd]
  clear hwsub
  rw [show o + d + w = d + usize by rw [Nat.add_comm o d, Nat.add_assoc, ← hw],
    Nat.add_mod_right,
    Nat.mod_eq_of_lt (lt_of_le_of_lt
      (le_trans (Nat.le_add_left d o) (le_of_eq hd.symm)) hfn),
    Nat.mod_eq_of_lt (lt_of_le_of_lt
      (le_trans (le_of_eq (Nat.add_comm d 1))
        (le_trans (Nat.add_le_add_right ho1 d) (le_of_eq hd.symm))) hfn)]

theorem resumeIdx_eval_eq (f n o : Nat) (how : o < usize)
    (hoe : o = f + n + 1) : resumeIdx f n o = 0 := by
  obtain ⟨w, hw⟩ := Nat.exists_eq_add_of_le (le_of_lt how)
  have hwsub : usize - o = w := by rw [hw, Nat.add_sub_cancel_left]
  have husz : usize = f + n + w + 1 := by
    rw [hw, hoe, Nat.add_right_comm]
  show ((f + n + (usize - o % usize)) % usize + 1) % usize = 0
  rw [Nat.mod_eq_of_lt how, hwsub]
  clear hwsub
  rw [Nat.mod_eq_of_lt (lt_of_lt_of_le (Nat.lt_succ_self (f + n + w))
      (le_of_eq husz.symm)),
    husz.symm, Nat.mod_self]

theorem resumeIdx_eval_lt (f n o e : Nat) (how : o < usize)
    (hoe : o = f + n + 2 + e) : resumeIdx f n o + (e + 1) = usize := by
  obtain ⟨w, hw⟩ := Nat.exists_eq_add_of_le (le_of_lt how)
  have hwsub : usize - o = w := by rw [hw, Nat.add_sub_cancel_left]
  show ((f + n + (usize - o % usize)) % usize + 1) % usize + (e + 1) = usize
  rw [Nat.mod_eq_of_lt how, hwsub]
  clear hwsub how
  rw [Nat.mod_eq_of_lt (show f + n + w < usize by omega),
    Nat.mod_eq_of_lt (show f + n + w + 1 < usize by omega)]
  omega

theorem resumeIdx_new_match_lb (f n o i : Nat) (ho1 : 1 ≤ o) (how : o < usize)
    (hfn : f + n < usize) (hiw : i + o < usize)
    (hsi : resumeIdx f n o ≤ i) : f + n < i + o := by
  by_cases hc : o ≤ f + n
  · obtain ⟨d, hd⟩ := Nat.exists_eq_add_of_le hc
    rw [resumeIdx_eval_ge f n o d ho1 how hfn hd] at hsi
    clear ho1 how hfn hiw hc
    omega
  · push_neg at hc
    by_cases hc2 : o = f + n + 1
    · clear ho1 how hfn hiw hc hsi
      omega
    · obtain ⟨e, he⟩ : ∃ e, o = f + n + 2 + e := by
        obtain ⟨k, hk⟩ := Nat.exists_eq_add_of_lt hc
        cases k with
        | zero => exact absurd (by clear ho1 how hfn hiw hsi; omega) hc2
        | succ k2 => exact ⟨k2, by clear ho1 how hfn hiw hsi hc2 hc; omega⟩
      have hv := resumeIdx_eval_lt f n o e how he
      clear ho1 how hfn hc hc2
      omega

theorem replaceLoop_flag (old : List Int) (newt : unc_text)
    (holen : 1 ≤ old.length) (holw : old.length < usize) :
    ∀ (fuel : Nat) (t : unc_text) (fidx : Int) (rcnt : Nat),
      t.size + newt.size * fuel < usize →
      (fidx < 0 ∨ (0 ≤ fidx ∧ fidx.toNat + old.length ≤ t.size ∧
        t.size < fuel + fidx.toNat)) →
      (replaceLoop old newt fuel t fidx rcnt).2.2 = true := by
  intro fuel
  induction fuel with
  | zero =>
      intro t fidx rcnt hbound hinv
      have hf : fidx < 0 := by
        rcases hinv with h | ⟨_, hfb, hm⟩
        · exact h
        · omega
      rw [replaceLoop, if_neg (not_le.mpr hf)]
  | succ fuel2 ih =>
      intro t fidx rcnt hbound hinv
      by_cases hf : fidx ≥ 0
      · rcases hinv with h | ⟨_, hfb, hmeas⟩
        · exact absurd h (not_lt.mpr hf)
        · rw [replaceLoop, if_pos hf]
          have hn1 : newt.size ≤ newt.size * (fuel2 + 1) :=
            Nat.le_mul_of_pos_right newt.size (Nat.succ_pos fuel2)
          have hmul : newt.size * (fuel2 + 1) = newt.size * fuel2 + newt.size := by
            ring
          have harith : ∀ S i2 : Nat, S + old.length = t.size + newt.size →
              S + newt.size * fuel2 < usize ∧
              fidx.toNat + newt.size < usize ∧
              (i2 + old.length ≤ S →
                i2 + old.length < usize ∧
                (fidx.toNat + newt.size < i2 + old.length → S < fuel2 + i2)) := by
            intro S i2 hS
            refine ⟨?_, ?_, fun hi2 => ⟨?_, fun hk => ?_⟩⟩
            · clear hfb hmeas holw ih
              omega
            · clear hS hmeas hmul ih
              omega
            · clear hfb hmeas holw ih
              omega
            · clear hbound hn1 hmul holw ih
              omega
          have hesz := erase_size t fidx.toNat old.length hfb
          have hisz := insert_size (t.erase fidx.toNat old.length) fidx.toNat
            newt (Nat.le_of_add_le_add_right (hesz.symm ▸ hfb))
          have ht2 : ((t.erase fidx.toNat old.length).insert fidx.toNat newt).size
              + old.length = t.size + newt.size := by
            rw [hisz, Nat.add_right_comm, hesz]
          refine ih ((t.erase fidx.toNat old.length).insert fidx.toNat newt)
            (((t.erase fidx.toNat old.length).insert fidx.toNat newt).find old
              (resumeIdx fidx.toNat newt.size old.length)) (rcnt + 1)
            (harith _ 0 ht2).1 ?_
          rcases find_cases ((t.erase fidx.toNat old.length).insert fidx.toNat newt)
            old (resumeIdx fidx.toNat newt.size old.length) with hn | ⟨i, hei, hsi, hib⟩
          · left
            rw [hn]
            norm_num
          · right
            rw [hei]
            have hkey := resumeIdx_new_match_lb fidx.toNat newt.size
              old.length i holen holw (harith _ i ht2).2.1
              ((harith _ i ht2).2.2 hib).1 hsi
            refine ⟨intOfNat_nonneg i, ?_, ?_⟩
            · rw [intToNat_ofNat]
              exact hib
            · rw [intToNat_ofNat]
              exact ((harith _ i ht2).2.2 hib).2 hkey
      · rw [replaceLoop, if_neg hf]

end unc_text

/-- C5 counterexample: replacing `[97, 98]` ("ab") by `[120, 97]` ("xa") in
`[97, 98, 98]` ("abb").  After the first replacement the buffer is "xab" with
the inserted text at positions 0 and 1, yet the search resumes at position 1
(`fidx + newSize - oldLen + 1`), not at position 2 after the inserted text,
and it matches at position 1 — beginning inside the inserted content — giving
count 2; a search resuming at position 2 would have found nothing. -/
theorem replace_rematch_inside_inserted :
    (unc_text.replace ⟨[97, 98, 98], false, []⟩ [97, 98]
      ⟨[120, 97], false, []⟩).2 = 2 ∧
    resumeIdx 0 2 2 = 1 ∧
    unc_text.find ⟨[120, 97, 98], false, []⟩ [97, 98] 1 = 1 ∧
    unc_text.find ⟨[120, 97, 98], false, []⟩ [97, 98] 2 = -1 := by
  decide

/-- C5 amended: for a non-empty pattern (with realistic size bounds) the
replace loop terminates — fuel `size + 1` always suffices — and it returns the
count of replacements performed.  The search resumes at
`matchIdx + newLen - oldLen + 1`, the first position at which a fresh
occurrence cannot lie entirely within the just-inserted text, so no
replacement re-matches entirely inside inserted content; a later match may
however begin inside the tail of the inserted text (see the counterexample). -/
theorem replace_terminates_resume (t : unc_text) (old : List Int)
    (newt : unc_text) (h1 : 1 ≤ old.length) (h2 : old.length < usize)
    (h3 : t.size + newt.size * (t.size + 1) < usize) :
    (unc_text.replaceLoop old newt (t.size + 1) t (t.find old 0) 0).2.2 = true ∧
    (∀ (u : unc_text) (f i : Nat), u.size < usize → f + newt.size < usize →
      u.find old (resumeIdx f newt.size old.length) = Int.ofNat i →
      f + newt.size < i + old.length) := by
  constructor
  · apply replaceLoop_flag old newt h1 h2 (t.size + 1) t _ 0 h3
    rcases find_cases t old 0 with he | ⟨i, he, _, hib⟩
    · left
      rw [he]
      norm_num
    · right
      rw [he]
      refine ⟨intOfNat_nonneg i, ?_, ?_⟩
      · rw [intToNat_ofNat]
        exact hib
      · rw [intToNat_ofNat]
        omega
  · intro u f i hu hfu hfind
    rcases find_cases u old (resumeIdx f newt.size old.length) with
      he | ⟨j, hej, hsj, hjb⟩
    · rw [he] at hfind
      exact absurd hfind (by simp)
    · rw [hej] at hfind
      have hji : j = i := Int.ofNat.inj hfind
      rw [hji] at hsj hjb
      exact resumeIdx_new_match_lb f newt.size old.length i h1 h2 hfu
        (by omega) hsj

/-- C5 witness: `replace("a", "bb")` on "banana": the loop with fuel
`size + 1 = 7` terminates normally. -/
theorem replace_terminates_resume_witness :
    (1 ≤ List.length [(97 : Int)]) ∧
    (unc_text.replaceLoop [97] ⟨[98, 98], false, []⟩ 7
      ⟨[98, 97, 110, 97, 110, 97], false, []⟩
      (unc_text.find ⟨[98, 97, 110, 97, 110, 97], false, []⟩ [97] 0) 0).2.2
      = true :=
  ⟨by decide,
    (replace_terminates_resume ⟨[98, 97, 110, 97, 110, 97], false, []⟩ [97]
      ⟨[98, 98], false, []⟩ (by decide) (by norm_num [usize])
      (by norm_num [usize, unc_text.size])).1⟩
